import Mathlib

/-!
Verification of the Miller-Rabin primality-testing repository.

The development shallowly embeds the two source files:

* the Montgomery reduction engine (`bitLength`, `gcd`, `invert`,
  `reductionContextFor`, `reduce`, `invReduce`, `sqr`, `mul`, `pow`),
  whose numbers are JavaScript `bigint`s, embedded as `Nat` (all reachable
  values are non-negative), with `Int` used for the one intermediate value
  (`t - c` inside `mul`) that can be negative;
* the Miller-Rabin tester `testPrimality` from `index.js`, whose bn.js
  arithmetic is embedded as `Nat` arithmetic and whose per-round random
  retained bases are passed explicitly as a list (the randomness source is
  an external collaborator); the returned promise is embedded as
  `Except String MillerRabinResult` (`ok` = resolve, `error` = reject).

While-loops are embedded as recursive functions; the only loop whose
termination depends on a nontrivial invariant (the binary-gcd subtraction
loop) takes an explicit fuel argument, and the top-level `gcd` passes fuel
that is proved sufficient (`gcd_eq_natGcd`).
-/

namespace MillerRabin

/-- Embeds `bitLength(n) = n.toString(2).length`: the number of binary digits
of `n`, which is `1` for `n = 0` (the string "0"). -/
def bitLength (n : Nat) : Nat :=
  if n = 0 then 1 else Nat.log2 n + 1

/-- One iteration of the loop inside `invert`: if the accumulator is odd add
`base`, then halve (`inv >>= 1n`). -/
def invertStep (base inv : Nat) : Nat :=
  (if inv % 2 = 1 then inv + base else inv) / 2

/-- Embeds `invert(exp, base)`: Penk's right-shift inversion, starting from
`1` and applying the conditional-add-and-halve step `exp` times. -/
def invert : Nat → Nat → Nat
  | 0, _ => 1
  | e + 1, base => invertStep base (invert e base)

/-- Embeds the `MontgomeryReductionContext` record `{base, shift, r, rInv, baseInv}`. -/
structure MontgomeryReductionContext where
  base : Nat
  shift : Nat
  r : Nat
  rInv : Nat
  baseInv : Nat
  deriving Repr, DecidableEq

/-- Embeds `reductionContextFor(base)`.  The even-modulus check is the
outermost branch (`if (!(base & 1n)) throw ...`), taken before any field of
the context is computed; the `throw` is embedded as `Except.error`. -/
def reductionContextFor (base : Nat) : Except String MontgomeryReductionContext :=
  if base % 2 = 0 then .error "base must be odd"
  else
    let littleShift := bitLength base + 1
    let r := 1 <<< littleShift
    let rInv := invert littleShift base
    let baseInv := r - ((rInv * r - 1) / base) % r
    .ok { base := base, shift := littleShift, r := r, rInv := rInv, baseInv := baseInv }

/-- Embeds `reduce(n, ctx) = (n << ctx.shift) % ctx.base`. -/
def reduce (n : Nat) (ctx : MontgomeryReductionContext) : Nat :=
  (n <<< ctx.shift) % ctx.base

/-- Embeds `invReduce(n, ctx) = (n * ctx.rInv) % ctx.base`. -/
def invReduce (n : Nat) (ctx : MontgomeryReductionContext) : Nat :=
  (n * ctx.rInv) % ctx.base

/-- Embeds `mul(a, b, ctx)` up to (but not including) the final conversion
back to `Nat`: `t = a*b`, `c = (((t & (r-1)) * baseInv) & (r-1)) * base`,
`product = (t - c) >> shift` (arithmetic shift of a possibly negative
bigint, i.e. flooring division by `2^shift`), then at most one correction
step.  `t - c` can be negative, hence the `Int`-valued result. -/
def mulAux (a b : Nat) (ctx : MontgomeryReductionContext) : Int :=
  if a = 0 ∨ b = 0 then 0
  else
    let rm1 := ctx.r - 1
    let t := a * b
    let c := ((t &&& rm1) * ctx.baseInv &&& rm1) * ctx.base
    let product : Int := Int.fdiv ((t : Int) - (c : Int)) ((2 : Int) ^ ctx.shift)
    if (ctx.base : Int) ≤ product then product - (ctx.base : Int)
    else if product < 0 then product + (ctx.base : Int)
    else product

/-- Embeds `mul(a, b, ctx)`; the result is non-negative whenever the context
was built by `reductionContextFor` (proved in `mulAux_spec`), so the final
`Int.toNat` is lossless there. -/
def mul (a b : Nat) (ctx : MontgomeryReductionContext) : Nat :=
  (mulAux a b ctx).toNat

/-- Embeds `sqr(n, ctx) = mul(n, n, ctx) % ctx.base`. -/
def sqr (n : Nat) (ctx : MontgomeryReductionContext) : Nat :=
  mul n n ctx % ctx.base

/-- The loop inside `pow`: `count` remaining iterations, `i` the current bit
index, `x` the current repeated square of the input, `result` the
accumulator.  `exp & (1n << i)` is nonzero exactly when bit `i` of `exp` is
set, i.e. `exp.testBit i`. -/
def powAux (ctx : MontgomeryReductionContext) (exp : Nat) : Nat → Nat → Nat → Nat → Nat
  | _, _, result, 0 => result
  | i, x, result, count + 1 =>
      powAux ctx exp (i + 1) (sqr x ctx)
        (if exp.testBit i then mul result x ctx else result) count

/-- Embeds `pow(n, exp, ctx)`: exponentiation by squaring over the
`bitLength(exp)` low bits of `exp`, with the accumulator initialized to
`reduce(1n, ctx)`. -/
def pow (n exp : Nat) (ctx : MontgomeryReductionContext) : Nat :=
  powAux ctx exp 0 n (reduce 1 ctx) (bitLength exp)

/-- Embeds the inner `while (!(x & 1n)) x >>= 1n` loops of `gcd`: repeatedly
halve while even.  (In the source this loop is only ever entered with a
positive operand; at `0` it would not terminate, here `oddPart 0 = 0`.) -/
def oddPart (n : Nat) : Nat :=
  if n = 0 then 0
  else if n % 2 = 0 then oddPart (n / 2)
  else n
termination_by n
decreasing_by exact Nat.div_lt_self (Nat.pos_of_ne_zero (by assumption)) (by omega)

/-- Embeds the first loop of `gcd`: while both operands are even, halve both
and count the shared factor of two.  (In the source this loop is only ever
entered with positive operands; the `0 < a + b` guard makes the embedding
total.) -/
def stripShared (a b k : Nat) : Nat × Nat × Nat :=
  if a % 2 = 0 ∧ b % 2 = 0 ∧ 0 < a + b then stripShared (a / 2) (b / 2) (k + 1)
  else (a, b, k)
termination_by a + b
decreasing_by omega

/-- Embeds the main subtraction loop of `gcd` (`while (a !== b && b > 1n)`),
with an explicit fuel argument bounding the iteration count: strip the odd
parts, swap to keep `a > b`, break when equal, else subtract. -/
def gcdLoop : Nat → Nat → Nat → Nat
  | 0, _, b => b
  | fuel + 1, a, b =>
    if a ≠ b ∧ 1 < b then
      let x := oddPart a
      let y := oddPart b
      if x < y then gcdLoop fuel (y - x) x
      else if x = y then y
      else gcdLoop fuel (x - y) y
    else b

/-- Embeds `gcd(a, b)`: the three early returns, the shared-factors-of-two
loop, the subtraction loop, and the final re-shift `b << sharedTwoFactors`.
The fuel `a' + b'` passed to `gcdLoop` is proved sufficient. -/
def gcd (a b : Nat) : Nat :=
  if a = b then a
  else if a = 0 then b
  else if b = 0 then a
  else
    let s := stripShared a b 0
    gcdLoop (s.1 + s.2.1) s.1 s.2.1 <<< s.2.2

/-- Reference Euclidean algorithm the spec cross-checks `gcd` against. -/
def euclidGcd : Nat → Nat → Nat
  | 0, b => b
  | a + 1, b => euclidGcd (b % (a + 1)) (a + 1)
termination_by a _ => a
decreasing_by exact Nat.lt_succ_of_le (Nat.le_of_lt_succ (Nat.mod_lt _ (Nat.succ_pos _)))

/-- Embeds the result record of `index.js`: `{n, probablePrime, witness}`. -/
structure MillerRabinResult where
  n : Int
  probablePrime : Bool
  witness : Option Nat
  deriving Repr, DecidableEq

/-- Embeds bn.js `zeroBits()` (an external collaborator of `index.js`): the
number of trailing zero bits, i.e. the multiplicity of two. -/
def zeroBits (n : Nat) : Nat :=
  if n = 0 then 0
  else if n % 2 = 1 then 0
  else zeroBits (n / 2) + 1
termination_by n
decreasing_by exact Nat.div_lt_self (Nat.pos_of_ne_zero (by assumption)) (by omega)

/-- The exit condition of the base-sampling `do/while` in `index.js`: a drawn
candidate is retained exactly when `base.gtn(2) && base.lt(nSub)`, i.e.
`2 < base` and `base < n - 1`. -/
def baseRetained (n base : Nat) : Bool :=
  decide (2 < base) && decide (base < n - 1)

/-- The multiplicity `r` of two in `n - 1`, as computed by `index.js` via
`nSub.zeroBits()`. -/
def mrR (n : Nat) : Nat :=
  zeroBits (n - 1)

/-- The odd cofactor `d` of `n - 1`, as computed by `index.js` via
`nSub.div(new BN("2").pow(new BN(r)))`. -/
def mrD (n : Nat) : Nat :=
  (n - 1) / 2 ^ mrR n

/-- Embeds the inner Miller-Rabin squaring loop of `index.js` with `count`
iterations left: square `x` mod `n`; reaching `1` fails the round
(`break outer`), reaching `n - 1` passes it (`break`); running out of
iterations (`i === r`) also fails.  `true` means the round passed. -/
def squaringLoop (n : Nat) : Nat → Nat → Bool
  | _, 0 => false
  | x, count + 1 =>
    let x2 := x * x % n
    if x2 = 1 then false
    else if x2 = n - 1 then true
    else squaringLoop n x2 count

/-- One round of `index.js` for retained base `base`:
`x = base.pow(d).mod(n)`, immediate pass when `x` is `1` or `n - 1`, else
the squaring loop.  `true` means the round passed. -/
def oneRound (n d r base : Nat) : Bool :=
  let x := base ^ d % n
  if x = 1 ∨ x = n - 1 then true
  else squaringLoop n x r

/-- The `outer` round loop of `index.js` over the list of retained bases:
returns the base of the first failing round (the recorded `witness`), or
`none` when every round passes.  Recursion stops at the first failure,
embedding `break outer`. -/
def runRounds (n d r : Nat) : List Nat → Option Nat
  | [] => none
  | base :: rest =>
    if oneRound n d r base then runRounds n d r rest else some base

/-- The `MillerRabinResult` that `testPrimality` resolves with, as a function
of the parsed integer input `n` and the per-round retained bases. -/
def testResult (n : Int) (bases : List Nat) : MillerRabinResult :=
  if n < 2 then { n := n, probablePrime := false, witness := none }
  else if n < 4 then { n := n, probablePrime := true, witness := none }
  else
    let m := n.toNat
    match runRounds m (mrD m) (mrR m) bases with
    | none => { n := n, probablePrime := true, witness := none }
    | some w => { n := n, probablePrime := false, witness := some w }

/-- Embeds `testPrimality` for inputs that parse to an integer: the bn.js
constructor accepts any integer (negative included), so the `try` body runs
to a `resolve` and the promise never rejects on such inputs. -/
def testPrimality (n : Int) (bases : List Nat) : Except String MillerRabinResult :=
  Except.ok (testResult n bases)

/-! ### Facts about `bitLength` and `invert` -/

theorem bitLength_lt (n : Nat) : n < 2 ^ bitLength n := by
  unfold bitLength
  split
  · subst_vars; norm_num
  · exact (Nat.log2_lt (by assumption)).mp (Nat.lt_succ_self _)

theorem bitLength_eval {n k : Nat} (h1 : 2 ^ k ≤ n) (h2 : n < 2 ^ (k + 1)) :
    bitLength n = k + 1 := by
  have hp : 1 ≤ 2 ^ k := Nat.one_le_two_pow
  have hn : n ≠ 0 := by omega
  unfold bitLength
  rw [if_neg hn]
  have ha := (Nat.le_log2 hn).mpr h1
  have hb := (Nat.log2_lt hn).mpr h2
  omega

theorem invert_bounds {base : Nat} (hb : 1 ≤ base) (e : Nat) :
    1 ≤ invert e base ∧ invert e base ≤ base := by
  induction e with
  | zero => exact ⟨Nat.le_refl 1, hb⟩
  | succ e ih =>
    show 1 ≤ invertStep base (invert e base) ∧ invertStep base (invert e base) ≤ base
    unfold invertStep
    split <;> omega

theorem invert_spec {base : Nat} (hb : base % 2 = 1) (e : Nat) :
    2 ^ e * invert e base ≡ 1 [MOD base] := by
  induction e with
  | zero => simpa [invert] using Nat.ModEq.refl 1
  | succ e ih =>
    have h2 : 2 * invertStep base (invert e base) =
        invert e base + (if invert e base % 2 = 1 then 1 else 0) * base := by
      unfold invertStep
      split <;> omega
    calc 2 ^ (e + 1) * invert (e + 1) base
        = 2 ^ e * (2 * invertStep base (invert e base)) := by
          show 2 ^ (e + 1) * invertStep base (invert e base) = _
          ring
      _ = 2 ^ e * invert e base +
            (2 ^ e * (if invert e base % 2 = 1 then 1 else 0)) * base := by
          rw [h2]; ring
      _ ≡ 2 ^ e * invert e base [MOD base] := by
          show _ % _ = _ % _
          rw [Nat.add_mul_mod_self_right]
      _ ≡ 1 [MOD base] := ih

/-! ### The Montgomery reduction context and its invariants -/

theorem reductionContextFor_eq {m : Nat} (hm : m % 2 = 1) :
    reductionContextFor m = Except.ok {
      base := m
      shift := bitLength m + 1
      r := 2 ^ (bitLength m + 1)
      rInv := invert (bitLength m + 1) m
      baseInv := 2 ^ (bitLength m + 1) -
        (invert (bitLength m + 1) m * 2 ^ (bitLength m + 1) - 1) / m
          % 2 ^ (bitLength m + 1) } := by
  unfold reductionContextFor
  rw [if_neg (by omega)]
  simp [Nat.one_shiftLeft]

theorem ctx_facts {m : Nat} {ctx : MontgomeryReductionContext} (hm : m % 2 = 1)
    (hctx : reductionContextFor m = Except.ok ctx) :
    ctx.base = m ∧ ctx.r = 2 ^ ctx.shift ∧ m < ctx.r ∧
    1 ≤ ctx.rInv ∧ ctx.rInv ≤ m ∧ ctx.rInv * ctx.r ≡ 1 [MOD m] ∧
    1 ≤ ctx.baseInv ∧ ctx.baseInv < ctx.r ∧ m * ctx.baseInv ≡ 1 [MOD ctx.r] := by
  rw [reductionContextFor_eq hm] at hctx
  obtain rfl := Except.ok.inj hctx
  have hm1 : 1 ≤ m := by omega
  set L := bitLength m + 1 with hL
  set R := 2 ^ L with hR
  set v := invert L m with hv
  have hmR : m < R := by
    calc m < 2 ^ bitLength m := bitLength_lt m
    _ ≤ R := Nat.pow_le_pow_right (by omega) (by omega)
  have hvb := invert_bounds hm1 L
  have hvR : v * R ≡ 1 [MOD m] := by
    rw [Nat.mul_comm]
    exact invert_spec hm L
  have hR2 : 2 ≤ R := by
    calc 2 = 2 ^ 1 := by norm_num
    _ ≤ R := Nat.pow_le_pow_right (by omega) (by omega)
  have hvR1 : 1 ≤ v * R :=
    Nat.one_le_iff_ne_zero.mpr (Nat.mul_ne_zero (by omega) (by omega))
  have hdvd : m ∣ v * R - 1 := (Nat.modEq_iff_dvd' hvR1).mp hvR.symm
  set q := (v * R - 1) / m with hqdef
  have hq : m * q = v * R - 1 := Nat.mul_div_cancel' hdvd
  have hmod : (v * R - 1) % R = R - 1 := by
    have h1 : (v - 1) * R = v * R - R := Nat.sub_one_mul v R
    have hRle : R ≤ v * R := Nat.le_mul_of_pos_left R (by omega)
    have h2 : v * R - 1 = R * (v - 1) + (R - 1) := by
      rw [Nat.mul_comm R (v - 1), h1]
      omega
    rw [h2, Nat.mul_add_mod]
    exact Nat.mod_eq_of_lt (by omega)
  set k := q % R with hkdef
  have hkR : k < R := Nat.mod_lt _ (by omega)
  have hk0 : k ≠ 0 := by
    intro h0
    have hz : (m * q) % R = 0 := by
      rw [Nat.mul_mod, hkdef.symm.trans h0, Nat.mul_zero, Nat.zero_mod]
    rw [hq, hmod] at hz
    omega
  refine ⟨rfl, rfl, hmR, hvb.1, hvb.2, hvR,
    show 1 ≤ R - k by omega, show R - k < R by omega, ?_⟩
  show m * (R - k) ≡ 1 [MOD R]
  apply Nat.ModEq.add_right_cancel' (m * k)
  have e1 : m * (R - k) + m * k ≡ 0 [MOD R] := by
    have key : m * (R - k) + m * k = m * R := by
      rw [← Nat.mul_add]
      congr 1
      omega
    rw [key]
    show m * R % R = 0 % R
    simp [Nat.mul_mod_left]
  have e2 : 1 + m * k ≡ 0 [MOD R] := by
    have hq1 : 1 + m * q = v * R := by omega
    calc 1 + m * k ≡ 1 + m * q [MOD R] := ((Nat.mod_modEq q R).mul_left m).add_left 1
      _ = v * R := hq1
      _ ≡ 0 [MOD R] := by
        show v * R % R = 0 % R
        simp [Nat.mul_mod_left]
  exact e1.trans e2.symm

/-! ### Correctness of the REDC multiplication step -/

theorem intModEq_of_natModEq {x y n : Nat} (h : x ≡ y [MOD n]) :
    (x : Int) ≡ (y : Int) [ZMOD (n : Int)] := by
  unfold Nat.ModEq at h
  unfold Int.ModEq
  exact_mod_cast h

theorem natModEq_of_intModEq {x y n : Nat}
    (h : (x : Int) ≡ (y : Int) [ZMOD (n : Int)]) : x ≡ y [MOD n] := by
  unfold Int.ModEq at h
  unfold Nat.ModEq
  exact_mod_cast h

theorem mulAux_spec {m : Nat} {ctx : MontgomeryReductionContext} (hm : m % 2 = 1)
    (hctx : reductionContextFor m = Except.ok ctx) {a b : Nat} (ha : a < m) (hb : b < m) :
    0 ≤ mulAux a b ctx ∧ mulAux a b ctx < (m : Int) ∧
    mulAux a b ctx * (ctx.r : Int) ≡ (a : Int) * b [ZMOD (m : Int)] := by
  obtain ⟨hbase, hrpow, hmr, -, -, -, -, -, hbinv⟩ := ctx_facts hm hctx
  have hm0 : 0 < m := by omega
  have hr0 : 0 < ctx.r := by omega
  by_cases hz : a = 0 ∨ b = 0
  · have hab : a * b = 0 := by rcases hz with h | h <;> simp [h]
    unfold mulAux
    rw [if_pos hz]
    refine ⟨le_refl 0, by exact_mod_cast hm0, ?_⟩
    have : ((a : Int) * b) = 0 := by exact_mod_cast hab
    rw [this]
    simp [Int.ModEq]
  · have hand : ∀ x : Nat, x &&& (ctx.r - 1) = x % ctx.r := by
      intro x
      rw [hrpow]
      exact Nat.and_pow_two_sub_one_eq_mod x ctx.shift
    have hcastr : ((ctx.r : Nat) : Int) = (2 : Int) ^ ctx.shift := by
      rw [hrpow]
      push_cast
      rfl
    unfold mulAux
    rw [if_neg hz]
    simp only [hand, hbase]
    set t := a * b with htdef
    set mm := t % ctx.r * ctx.baseInv % ctx.r with hmmdef
    have hmmlt : mm < ctx.r := Nat.mod_lt _ hr0
    -- the REDC quotient is exact:  r ∣ t - mm * m
    have hcong : mm * m ≡ t [MOD ctx.r] := by
      have h1 : mm ≡ t * ctx.baseInv [MOD ctx.r] := by
        calc mm ≡ t % ctx.r * ctx.baseInv [MOD ctx.r] := Nat.mod_modEq _ _
          _ ≡ t * ctx.baseInv [MOD ctx.r] := ((Nat.mod_modEq t ctx.r).mul_right _)
      calc mm * m ≡ t * ctx.baseInv * m [MOD ctx.r] := h1.mul_right m
        _ = t * (m * ctx.baseInv) := by ring
        _ ≡ t * 1 [MOD ctx.r] := hbinv.mul_left t
        _ = t := by ring
    have hdvd : (ctx.r : Int) ∣ (t : Int) - ((mm * m : Nat) : Int) :=
      (intModEq_of_natModEq hcong).dvd
    obtain ⟨z, hzz⟩ := hdvd
    have hu : Int.fdiv ((t : Int) - ((mm * m : Nat) : Int)) ((2 : Int) ^ ctx.shift) = z := by
      rw [hzz, ← hcastr]
      exact Int.mul_fdiv_cancel_left z (by exact_mod_cast Nat.pos_iff_ne_zero.mp hr0)
    rw [Int.mul_comm] at hzz
    -- bounds on the uncorrected quotient z
    have htlt : t < m * ctx.r := by
      have h1 : t < m * m := by
        calc t = a * b := htdef
        _ < m * m := Nat.mul_lt_mul_of_lt_of_lt ha hb
      have h2 : m * m ≤ m * ctx.r := Nat.mul_le_mul_left m (by omega)
      omega
    have hclt : mm * m < ctx.r * m := by
      have := Nat.mul_lt_mul_of_lt_of_le hmmlt (Nat.le_refl m) hm0
      omega
    have hzlt : z < (m : Int) := by
      have h1 : z * ctx.r < (m : Int) * ctx.r := by
        rw [← hzz]
        have h2 : ((t : Nat) : Int) < (m : Int) * ctx.r := by exact_mod_cast htlt
        have h3 : (0 : Int) ≤ ((mm * m : Nat) : Int) := by positivity
        omega
      exact lt_of_mul_lt_mul_right h1 (by positivity)
    have hzgt : -(m : Int) < z := by
      have h1 : -(m : Int) * ctx.r < z * ctx.r := by
        rw [← hzz]
        have h2 : ((mm * m : Nat) : Int) < (ctx.r : Int) * m := by exact_mod_cast hclt
        have h3 : (0 : Int) ≤ ((t : Nat) : Int) := by positivity
        nlinarith
      exact lt_of_mul_lt_mul_right h1 (by positivity)
    rw [hu]
    rw [if_neg (by omega)]
    -- the corrected value and its congruence to z
    have hres : ∀ w : Int, w ≡ z [ZMOD (m : Int)] →
        w * ctx.r ≡ (a : Int) * b [ZMOD (m : Int)] := by
      intro w hw
      calc w * ctx.r ≡ z * ctx.r [ZMOD (m : Int)] := hw.mul_right _
        _ = (t : Int) - ((mm * m : Nat) : Int) := hzz.symm
        _ ≡ (t : Int) - 0 [ZMOD (m : Int)] := by
            apply Int.ModEq.sub (Int.ModEq.refl _)
            show ((mm * m : Nat) : Int) % m = 0 % m
            push_cast
            simp [Int.mul_emod_right, Int.mul_emod_left]
        _ = (a : Int) * b := by push_cast [htdef]; ring
    by_cases hneg : z < 0
    · rw [if_pos hneg]
      refine ⟨by omega, by omega, hres _ ?_⟩
      show (z + m) % (m : Int) = z % m
      simp [Int.add_mul_emod_self_left]
    · rw [if_neg hneg]
      exact ⟨by omega, hzlt, hres z (Int.ModEq.refl z)⟩

theorem mul_spec {m : Nat} {ctx : MontgomeryReductionContext} (hm : m % 2 = 1)
    (hctx : reductionContextFor m = Except.ok ctx) {a b : Nat} (ha : a < m) (hb : b < m) :
    mul a b ctx < m ∧ mul a b ctx * ctx.r ≡ a * b [MOD m] ∧
    ((mul a b ctx : Nat) : Int) = mulAux a b ctx := by
  obtain ⟨h0, hlt, hcong⟩ := mulAux_spec hm hctx ha hb
  have hcast : ((mul a b ctx : Nat) : Int) = mulAux a b ctx := Int.toNat_of_nonneg h0
  refine ⟨by exact_mod_cast hcast ▸ hlt, ?_, hcast⟩
  apply natModEq_of_intModEq
  push_cast
  rw [hcast]
  exact hcong

/-! ### Semantics of `reduce`, `invReduce`, `sqr` and `pow` -/

theorem reduce_lt {m : Nat} {ctx : MontgomeryReductionContext} (hm : m % 2 = 1)
    (hctx : reductionContextFor m = Except.ok ctx) (x : Nat) : reduce x ctx < m := by
  obtain ⟨hbase, -, -, -, -, -, -, -, -⟩ := ctx_facts hm hctx
  unfold reduce
  rw [hbase]
  exact Nat.mod_lt _ (by omega)

theorem invReduce_lt {m : Nat} {ctx : MontgomeryReductionContext} (hm : m % 2 = 1)
    (hctx : reductionContextFor m = Except.ok ctx) (x : Nat) : invReduce x ctx < m := by
  obtain ⟨hbase, -, -, -, -, -, -, -, -⟩ := ctx_facts hm hctx
  unfold invReduce
  rw [hbase]
  exact Nat.mod_lt _ (by omega)

theorem invReduce_reduce_modEq {m : Nat} {ctx : MontgomeryReductionContext}
    (hm : m % 2 = 1) (hctx : reductionContextFor m = Except.ok ctx) (x : Nat) :
    invReduce (reduce x ctx) ctx ≡ x [MOD m] := by
  obtain ⟨hbase, hrpow, -, -, -, hvR, -, -, -⟩ := ctx_facts hm hctx
  unfold reduce invReduce
  rw [hbase, Nat.shiftLeft_eq, ← hrpow]
  calc x * ctx.r % m * ctx.rInv % m
      ≡ x * ctx.r % m * ctx.rInv [MOD m] := Nat.mod_modEq _ m
    _ ≡ x * ctx.r * ctx.rInv [MOD m] := (Nat.mod_modEq _ m).mul_right _
    _ = x * (ctx.rInv * ctx.r) := by ring
    _ ≡ x * 1 [MOD m] := hvR.mul_left x
    _ = x := by ring

theorem invReduce_mul {m : Nat} {ctx : MontgomeryReductionContext} (hm : m % 2 = 1)
    (hctx : reductionContextFor m = Except.ok ctx) {x y : Nat} (hx : x < m) (hy : y < m) :
    invReduce (mul x y ctx) ctx ≡ invReduce x ctx * invReduce y ctx [MOD m] := by
  obtain ⟨hbase, hrpow, -, -, -, hvR, -, -, -⟩ := ctx_facts hm hctx
  obtain ⟨-, hcong, -⟩ := mul_spec hm hctx hx hy
  unfold invReduce
  rw [hbase]
  calc mul x y ctx * ctx.rInv % m
      ≡ mul x y ctx * ctx.rInv [MOD m] := Nat.mod_modEq _ m
    _ ≡ mul x y ctx * ctx.rInv * (ctx.rInv * ctx.r) [MOD m] := by
        have := hvR.symm.mul_left (mul x y ctx * ctx.rInv)
        simpa using this
    _ = mul x y ctx * ctx.r * (ctx.rInv * ctx.rInv) := by ring
    _ ≡ x * y * (ctx.rInv * ctx.rInv) [MOD m] := hcong.mul_right _
    _ = (x * ctx.rInv) * (y * ctx.rInv) := by ring
    _ ≡ x * ctx.rInv % m * (y * ctx.rInv % m) [MOD m] :=
        (Nat.mod_modEq _ m).symm.mul (Nat.mod_modEq _ m).symm

theorem sqr_eq_mul {m : Nat} {ctx : MontgomeryReductionContext} (hm : m % 2 = 1)
    (hctx : reductionContextFor m = Except.ok ctx) {x : Nat} (hx : x < m) :
    sqr x ctx = mul x x ctx := by
  obtain ⟨hbase, -, -, -, -, -, -, -, -⟩ := ctx_facts hm hctx
  obtain ⟨hlt, -, -⟩ := mul_spec hm hctx hx hx
  unfold sqr
  rw [hbase]
  exact Nat.mod_eq_of_lt hlt

theorem sqr_lt {m : Nat} {ctx : MontgomeryReductionContext} (hm : m % 2 = 1)
    (hctx : reductionContextFor m = Except.ok ctx) (x : Nat) : sqr x ctx < m := by
  obtain ⟨hbase, -, -, -, -, -, -, -, -⟩ := ctx_facts hm hctx
  unfold sqr
  rw [hbase]
  exact Nat.mod_lt _ (by omega)

theorem mod_two_pow_succ (e c : Nat) :
    e % 2 ^ (c + 1) = e % 2 + 2 * (e / 2 % 2 ^ c) := by
  have h1 : (2 : Nat) ^ (c + 1) = 2 * 2 ^ c := by ring
  have hp : 0 < 2 ^ c := Nat.pos_pow_of_pos c (by omega)
  have hlt : 2 * (e / 2 % 2 ^ c) + e % 2 < 2 * 2 ^ c := by
    have := Nat.mod_lt (e / 2) hp
    omega
  have hcong : 2 * (e / 2) + e % 2 ≡ 2 * (e / 2 % 2 ^ c) + e % 2 [MOD 2 * 2 ^ c] :=
    ((Nat.mod_modEq (e / 2) (2 ^ c)).symm.mul_left' (c := 2)).add_right (e % 2)
  have h2 : (2 * (e / 2) + e % 2) % (2 * 2 ^ c) = 2 * (e / 2 % 2 ^ c) + e % 2 := by
    rw [hcong]
    exact Nat.mod_eq_of_lt hlt
  calc e % 2 ^ (c + 1) = (2 * (e / 2) + e % 2) % (2 * 2 ^ c) := by
        rw [h1, Nat.div_add_mod]
    _ = 2 * (e / 2 % 2 ^ c) + e % 2 := h2
    _ = e % 2 + 2 * (e / 2 % 2 ^ c) := by ring

theorem powAux_spec {m : Nat} {ctx : MontgomeryReductionContext} (hm : m % 2 = 1)
    (hctx : reductionContextFor m = Except.ok ctx) (exp : Nat) :
    ∀ (count i x result : Nat), x < m → result < m →
      powAux ctx exp i x result count < m ∧
      invReduce (powAux ctx exp i x result count) ctx ≡
        invReduce result ctx * invReduce x ctx ^ (exp / 2 ^ i % 2 ^ count) [MOD m] := by
  intro count
  induction count with
  | zero =>
    intro i x result hx hres
    refine ⟨hres, ?_⟩
    rw [pow_zero, Nat.mod_one, pow_zero, Nat.mul_one]
    exact Nat.ModEq.refl _
  | succ c ih =>
    intro i x result hx hres
    have hx' : sqr x ctx < m := sqr_lt hm hctx x
    set result1 := if exp.testBit i then mul result x ctx else result with hres1def
    have hres1 : result1 < m := by
      rw [hres1def]
      split
      · exact (mul_spec hm hctx hres hx).1
      · exact hres
    have hstep : powAux ctx exp i x result (c + 1) =
        powAux ctx exp (i + 1) (sqr x ctx) result1 c := rfl
    obtain ⟨ihlt, ihcong⟩ := ih (i + 1) (sqr x ctx) result1 hx' hres1
    rw [hstep]
    refine ⟨ihlt, ihcong.trans ?_⟩
    -- arithmetic of the exponent
    have hdiv : exp / 2 ^ (i + 1) = exp / 2 ^ i / 2 := by
      rw [Nat.div_div_eq_div_mul, pow_succ]
    set e0 := exp / 2 ^ i with he0
    have hsplit : e0 % 2 ^ (c + 1) = e0 % 2 + 2 * (e0 / 2 % 2 ^ c) :=
      mod_two_pow_succ e0 c
    have hsqr : invReduce (sqr x ctx) ctx ≡ invReduce x ctx * invReduce x ctx [MOD m] := by
      rw [sqr_eq_mul hm hctx hx]
      exact invReduce_mul hm hctx hx hx
    have hsqrpow : invReduce (sqr x ctx) ctx ^ (e0 / 2 % 2 ^ c) ≡
        invReduce x ctx ^ (2 * (e0 / 2 % 2 ^ c)) [MOD m] := by
      calc invReduce (sqr x ctx) ctx ^ (e0 / 2 % 2 ^ c)
          ≡ (invReduce x ctx * invReduce x ctx) ^ (e0 / 2 % 2 ^ c) [MOD m] :=
            hsqr.pow _
        _ = invReduce x ctx ^ (2 * (e0 / 2 % 2 ^ c)) := by
            rw [← sq, ← pow_mul]
    have hbit : exp.testBit i = decide (e0 % 2 = 1) := Nat.testBit_to_div_mod
    rw [hdiv]
    by_cases hb : e0 % 2 = 1
    · have hbt : exp.testBit i = true := by rw [hbit, hb]; rfl
      have hres1eq : result1 = mul result x ctx := by rw [hres1def, hbt]; rfl
      rw [hres1eq]
      calc invReduce (mul result x ctx) ctx * invReduce (sqr x ctx) ctx ^ (e0 / 2 % 2 ^ c)
          ≡ invReduce result ctx * invReduce x ctx *
              invReduce x ctx ^ (2 * (e0 / 2 % 2 ^ c)) [MOD m] :=
            (invReduce_mul hm hctx hres hx).mul hsqrpow
        _ = invReduce result ctx * invReduce x ctx ^ (e0 % 2 + 2 * (e0 / 2 % 2 ^ c)) := by
            rw [hb, pow_add, pow_one]
            ring
        _ = invReduce result ctx * invReduce x ctx ^ (e0 % 2 ^ (c + 1)) := by
            rw [hsplit]
    · have hb0 : e0 % 2 = 0 := by omega
      have hbt : exp.testBit i = false := by rw [hbit, hb0]; rfl
      have hres1eq : result1 = result := by rw [hres1def, hbt]; rfl
      rw [hres1eq]
      calc invReduce result ctx * invReduce (sqr x ctx) ctx ^ (e0 / 2 % 2 ^ c)
          ≡ invReduce result ctx * invReduce x ctx ^ (2 * (e0 / 2 % 2 ^ c)) [MOD m] :=
            (Nat.ModEq.refl _).mul hsqrpow
        _ = invReduce result ctx * invReduce x ctx ^ (e0 % 2 ^ (c + 1)) := by
            rw [hsplit, hb0, Nat.zero_add]

theorem pow_spec {m : Nat} {ctx : MontgomeryReductionContext} (hm : m % 2 = 1)
    (hctx : reductionContextFor m = Except.ok ctx) {a : Nat} (_ha : a < m) (e : Nat) :
    invReduce (pow (reduce a ctx) e ctx) ctx = a ^ e % m := by
  have hred1 : reduce 1 ctx < m := reduce_lt hm hctx 1
  have hreda : reduce a ctx < m := reduce_lt hm hctx a
  obtain ⟨hlt, hcong⟩ :=
    powAux_spec hm hctx e (bitLength e) 0 (reduce a ctx) (reduce 1 ctx) hreda hred1
  have hexp : e / 2 ^ 0 % 2 ^ bitLength e = e := by
    rw [pow_zero, Nat.div_one]
    exact Nat.mod_eq_of_lt (bitLength_lt e)
  rw [hexp] at hcong
  have hfin : invReduce (pow (reduce a ctx) e ctx) ctx ≡ a ^ e [MOD m] := by
    calc invReduce (pow (reduce a ctx) e ctx) ctx
        ≡ invReduce (reduce 1 ctx) ctx * invReduce (reduce a ctx) ctx ^ e [MOD m] := hcong
      _ ≡ 1 * a ^ e [MOD m] :=
        (invReduce_reduce_modEq hm hctx 1).mul ((invReduce_reduce_modEq hm hctx a).pow e)
      _ = a ^ e := by ring
  have hm0 : 0 < m := by omega
  have hself : invReduce (pow (reduce a ctx) e ctx) ctx % m =
      invReduce (pow (reduce a ctx) e ctx) ctx :=
    Nat.mod_eq_of_lt (invReduce_lt hm hctx _)
  calc invReduce (pow (reduce a ctx) e ctx) ctx
      = invReduce (pow (reduce a ctx) e ctx) ctx % m := hself.symm
    _ = a ^ e % m := hfin

theorem pow_zero_eq (n : Nat) (ctx : MontgomeryReductionContext) :
    pow n 0 ctx = reduce 1 ctx := rfl

/-! ### Correctness of the binary `gcd` -/

theorem oddPart_spec : ∀ n : Nat, 0 < n →
    0 < oddPart n ∧ oddPart n % 2 = 1 ∧ oddPart n ≤ n ∧
      ∀ b : Nat, b % 2 = 1 → Nat.gcd (oddPart n) b = Nat.gcd n b := by
  intro n
  induction n using Nat.strong_induction_on with
  | _ n ih =>
    intro hn
    by_cases he : n % 2 = 0
    · have hrec : oddPart n = oddPart (n / 2) := by
        conv_lhs => rw [oddPart]
        rw [if_neg (by omega), if_pos he]
      have hhalf : 0 < n / 2 := by omega
      obtain ⟨h1, h2, h3, h4⟩ := ih (n / 2) (by omega) hhalf
      refine ⟨by omega, by omega, by omega, ?_⟩
      intro b hb
      rw [hrec, h4 b hb]
      have hco : Nat.Coprime 2 b := Nat.coprime_two_left.mpr (Nat.odd_iff.mpr hb)
      have h5 : n = 2 * (n / 2) := by omega
      calc Nat.gcd (n / 2) b = Nat.gcd (2 * (n / 2)) b := (hco.gcd_mul_left_cancel _).symm
        _ = Nat.gcd n b := by rw [← h5]
    · have hodd : oddPart n = n := by
        unfold oddPart
        rw [if_neg (by omega), if_neg he]
      rw [hodd]
      exact ⟨hn, by omega, Nat.le_refl n, fun b _ => rfl⟩

theorem stripShared_spec : ∀ a b k : Nat, 0 < a → 0 < b →
    ∃ j a1 b1, stripShared a b k = (a1, b1, k + j) ∧
      a = a1 * 2 ^ j ∧ b = b1 * 2 ^ j ∧ (a1 % 2 = 1 ∨ b1 % 2 = 1) ∧ 0 < a1 ∧ 0 < b1 := by
  intro a
  induction a using Nat.strong_induction_on with
  | _ a ih =>
    intro b k ha hb
    by_cases hc : a % 2 = 0 ∧ b % 2 = 0
    · have hrec : stripShared a b k = stripShared (a / 2) (b / 2) (k + 1) := by
        conv_lhs => rw [stripShared]
        rw [if_pos ⟨hc.1, hc.2, by omega⟩]
      obtain ⟨j, a1, b1, h1, h2, h3, h4, h5, h6⟩ :=
        ih (a / 2) (by omega) (b / 2) (k + 1) (by omega) (by omega)
      refine ⟨j + 1, a1, b1, ?_, ?_, ?_, h4, h5, h6⟩
      · have hk : k + 1 + j = k + (j + 1) := by omega
        rw [hrec, h1, hk]
      · have : a = 2 * (a / 2) := by omega
        rw [this, h2]
        ring
      · have : b = 2 * (b / 2) := by omega
        rw [this, h3]
        ring
    · have hstop : stripShared a b k = (a, b, k) := by
        unfold stripShared
        rw [if_neg (by tauto)]
      exact ⟨0, a, b, by rw [hstop]; rfl, by ring, by ring, by omega, ha, hb⟩

theorem gcdLoop_eq : ∀ fuel a b : Nat, 0 < a → 0 < b →
    (a % 2 = 1 ∨ b % 2 = 1) → a + b ≤ fuel → gcdLoop fuel a b = Nat.gcd a b := by
  intro fuel
  induction fuel with
  | zero => intro a b ha hb _ hle; omega
  | succ fuel ih =>
    intro a b ha hb hpar hle
    show (if a ≠ b ∧ 1 < b then _ else b) = Nat.gcd a b
    by_cases hcond : a ≠ b ∧ 1 < b
    · rw [if_pos hcond]
      obtain ⟨ha1, ha2, ha3, ha4⟩ := oddPart_spec a ha
      obtain ⟨hb1, hb2, hb3, hb4⟩ := oddPart_spec b hb
      set x := oddPart a with hxdef
      set y := oddPart b with hydef
      have hgxy : Nat.gcd x y = Nat.gcd a b := by
        rcases hpar with hodd | hodd
        · -- a odd: x = a
          have hxa : x = a := by
            rw [hxdef]
            unfold oddPart
            rw [if_neg (by omega), if_neg (by omega)]
          rw [hxa]
          rw [Nat.gcd_comm a y, Nat.gcd_comm a b]
          exact hb4 a hodd
        · -- b odd: strip a first, then y = b
          have hyb : y = b := by
            rw [hydef]
            unfold oddPart
            rw [if_neg (by omega), if_neg (by omega)]
          rw [hyb]
          exact ha4 b hodd
      by_cases hxy : x < y
      · rw [if_pos hxy]
        have hg : Nat.gcd (y - x) x = Nat.gcd a b := by
          rw [Nat.gcd_sub_self_left (by omega), Nat.gcd_comm y x, hgxy]
        rw [ih (y - x) x (by omega) (by omega) (Or.inr ha2) (by omega), hg]
      · rw [if_neg hxy]
        by_cases heq : x = y
        · rw [if_pos heq]
          rw [← hgxy, heq, Nat.gcd_self]
        · rw [if_neg heq]
          have hg : Nat.gcd (x - y) y = Nat.gcd a b := by
            rw [Nat.gcd_sub_self_left (by omega), hgxy]
          rw [ih (x - y) y (by omega) (by omega) (Or.inr hb2) (by omega), hg]
    · rw [if_neg hcond]
      have : a = b ∨ b = 1 := by omega
      rcases this with h | h
      · rw [h, Nat.gcd_self]
      · rw [h]
        simp

theorem gcd_eq_natGcd (a b : Nat) : gcd a b = Nat.gcd a b := by
  unfold gcd
  by_cases h1 : a = b
  · rw [if_pos h1, h1, Nat.gcd_self]
  by_cases h2 : a = 0
  · rw [if_neg h1, if_pos h2, h2]
    simp
  by_cases h3 : b = 0
  · rw [if_neg h1, if_neg h2, if_pos h3, h3]
    simp
  rw [if_neg h1, if_neg h2, if_neg h3]
  obtain ⟨j, a1, b1, hs, hae, hbe, hpar, ha1, hb1⟩ :=
    stripShared_spec a b 0 (by omega) (by omega)
  rw [hs]
  show gcdLoop (a1 + b1) a1 b1 <<< (0 + j) = Nat.gcd a b
  rw [Nat.zero_add]
  rw [gcdLoop_eq (a1 + b1) a1 b1 ha1 hb1 hpar (Nat.le_refl _), Nat.shiftLeft_eq, hae, hbe]
  rw [Nat.gcd_mul_right]

theorem euclidGcd_eq_natGcd : ∀ a b : Nat, euclidGcd a b = Nat.gcd a b := by
  intro a
  induction a using Nat.strong_induction_on with
  | _ a ih =>
    intro b
    match a with
    | 0 => simp [euclidGcd]
    | a + 1 =>
      rw [euclidGcd]
      rw [ih (b % (a + 1)) (Nat.lt_succ_of_le (Nat.le_of_lt_succ (Nat.mod_lt _ (Nat.succ_pos a)))) (a + 1)]
      exact (Nat.gcd_rec (a + 1) b).symm

/-! ### The Miller-Rabin round loop of `index.js` -/

theorem runRounds_append {n d r : Nat} {pre : List Nat} {w : Nat} (post : List Nat)
    (hpre : ∀ x ∈ pre, oneRound n d r x = true) (hw : oneRound n d r w = false) :
    runRounds n d r (pre ++ w :: post) = some w := by
  induction pre with
  | nil => simp [runRounds, hw]
  | cons p ps ih =>
    have hp : oneRound n d r p = true := hpre p (by simp)
    show (if oneRound n d r p then runRounds n d r (ps ++ w :: post) else some p) = some w
    rw [hp, if_pos rfl]
    exact ih fun x hx => hpre x (by simp [hx])

theorem testResult_witness_iff (k : Int) (bases : List Nat) :
    (testResult k bases).witness.isSome = true ↔
      ((testResult k bases).probablePrime = false ∧ 4 ≤ k ∧
        (runRounds k.toNat (mrD k.toNat) (mrR k.toNat) bases).isSome = true) := by
  unfold testResult
  by_cases h2 : k < 2
  · rw [if_pos h2]
    constructor
    · intro h
      exact absurd h (by simp)
    · rintro ⟨-, h4, -⟩
      omega
  · rw [if_neg h2]
    by_cases h4 : k < 4
    · rw [if_pos h4]
      constructor
      · intro h
        exact absurd h (by simp)
      · rintro ⟨hfalse, -, -⟩
        exact absurd hfalse (by simp)
    · rw [if_neg h4]
      cases hrr : runRounds k.toNat (mrD k.toNat) (mrR k.toNat) bases with
      | none => simp [hrr]
      | some w =>
        simp only [hrr]
        simp
        omega

/-! ### The claims -/

/-- C1 counterexample: for the odd modulus 3 the produced context is
`{base 3, shift 3, r 8, rInv 2, baseInv 3}`, and `base * baseInv = 9 ≡ 1
(mod 8)`, not `-1 (mod 8)` as the spec's invariant states. -/
theorem reductionContextFor_minus_one_fails :
    reductionContextFor 3 = Except.ok ⟨3, 3, 8, 2, 3⟩ ∧
    ¬((3 * 3 : Int) ≡ -1 [ZMOD 8]) := by
  constructor
  · rw [reductionContextFor_eq (by norm_num),
      bitLength_eval (n := 3) (k := 1) (by norm_num) (by norm_num),
      show invert (1 + 1 + 1) 3 = 2 from rfl]
    norm_num
  · decide

/-- C1 (amended): for every odd modulus, the context built by
`reductionContextFor` satisfies: `base` is odd, `r > base`,
`rInv * r ≡ 1 (mod base)`, and `base * baseInv ≡ +1 (mod r)` (the spec
stated `-1`; the code computes the inverse itself, which is what its
subtracting REDC step uses). -/
theorem reductionContextFor_invariants {m : Nat} {ctx : MontgomeryReductionContext}
    (hm : m % 2 = 1) (hctx : reductionContextFor m = Except.ok ctx) :
    ctx.base % 2 = 1 ∧ ctx.base < ctx.r ∧
    ctx.rInv * ctx.r ≡ 1 [MOD ctx.base] ∧ ctx.base * ctx.baseInv ≡ 1 [MOD ctx.r] := by
  obtain ⟨hbase, -, hmr, -, -, hvR, -, -, hbinv⟩ := ctx_facts hm hctx
  rw [hbase]
  exact ⟨hm, hmr, hvR, hbinv⟩

/-- Concrete evaluation of the context for modulus 5, shared by several
witnesses below. -/
theorem reductionContextFor_five :
    reductionContextFor 5 = Except.ok ⟨5, 4, 16, 1, 13⟩ := by
  rw [reductionContextFor_eq (by norm_num),
    bitLength_eval (n := 5) (k := 2) (by norm_num) (by norm_num),
    show invert (2 + 1 + 1) 5 = 1 from rfl]
  norm_num

/-- C1 witness: the invariants instantiated at modulus 5, whose context is
`{base 5, shift 4, r 16, rInv 1, baseInv 13}`. -/
theorem reductionContextFor_invariants_witness :
    5 % 2 = 1 ∧ 5 < 16 ∧ 1 * 16 ≡ 1 [MOD 5] ∧ 5 * 13 ≡ 1 [MOD 16] := by
  have h := reductionContextFor_invariants (by norm_num) reductionContextFor_five
  exact ⟨h.1, h.2.1, h.2.2.1, h.2.2.2⟩

/-- C2: inputs 0 and 1 resolve with `probablePrime = false` and a null
witness, for any number of rounds; but for input 4 the base-sampling loop
retains only bases with `2 < base < 3`, which no integer satisfies, so the
do/while never exits and `testPrimality(4)` never resolves at all (the code
comment and spec both say the base is sampled from `[2, n-2]`, which for
`n = 4` is the nonempty `{2}`). -/
theorem testPrimality_small_inputs_and_four :
    (∀ base : Nat, baseRetained 4 base = false) ∧
    (∀ bases : List Nat, testPrimality 0 bases =
      Except.ok { n := 0, probablePrime := false, witness := none }) ∧
    (∀ bases : List Nat, testPrimality 1 bases =
      Except.ok { n := 1, probablePrime := false, witness := none }) := by
  refine ⟨?_, ?_, ?_⟩
  · intro base
    unfold baseRetained
    simp only [Bool.and_eq_false_iff, decide_eq_false_iff_not]
    omega
  · intro bases
    unfold testPrimality testResult
    norm_num
  · intro bases
    unfold testPrimality testResult
    norm_num

/-- C3: the sampling loop of `index.js` retains a drawn base iff
`2 < base < n - 1`, so the retained range is `[3, n-2]`, not the `[2, n-2]`
stated by the spec and by the code's own comment: the draw 2 is never
retained (first conjunct), while for example for `n = 9` the draws 3 and 7
are retained and 8 is not. -/
theorem baseRetained_excludes_two :
    (∀ n : Nat, baseRetained n 2 = false) ∧
    baseRetained 9 2 = false ∧ baseRetained 9 3 = true ∧
    baseRetained 9 7 = true ∧ baseRetained 9 8 = false := by
  refine ⟨?_, by decide, by decide, by decide, by decide⟩
  intro n
  unfold baseRetained
  simp

/-- C4: Montgomery multiplication is a homomorphism: for every odd modulus
`m > 2` and `a, b ∈ [0, m)`,
`invReduce(mul(reduce a, reduce b)) = (a*b) mod m`; moreover the value
`mul` returns (after its at-most-one correction step, exhibited on the
`Int`-valued `mulAux` before truncation to `Nat`) lies in `[0, m)`. -/
theorem mul_homomorphism {m a b : Nat} {ctx : MontgomeryReductionContext}
    (hm : m % 2 = 1) (_hm2 : 2 < m)
    (hctx : reductionContextFor m = Except.ok ctx) (_ha : a < m) (_hb : b < m) :
    invReduce (mul (reduce a ctx) (reduce b ctx) ctx) ctx = a * b % m ∧
    0 ≤ mulAux (reduce a ctx) (reduce b ctx) ctx ∧
    mulAux (reduce a ctx) (reduce b ctx) ctx < (m : Int) := by
  have hra := reduce_lt hm hctx a
  have hrb := reduce_lt hm hctx b
  obtain ⟨h0, hlt, -⟩ := mulAux_spec hm hctx hra hrb
  refine ⟨?_, h0, hlt⟩
  have h1 := invReduce_mul hm hctx hra hrb
  have h2 : invReduce (reduce a ctx) ctx * invReduce (reduce b ctx) ctx ≡ a * b [MOD m] :=
    (invReduce_reduce_modEq hm hctx a).mul (invReduce_reduce_modEq hm hctx b)
  have h3 := h1.trans h2
  have hout := invReduce_lt hm hctx (mul (reduce a ctx) (reduce b ctx) ctx)
  calc invReduce (mul (reduce a ctx) (reduce b ctx) ctx) ctx
      = invReduce (mul (reduce a ctx) (reduce b ctx) ctx) ctx % m :=
        (Nat.mod_eq_of_lt hout).symm
    _ = a * b % m := h3

/-- C4 witness: the homomorphism and range at `m = 5`, `a = 2`, `b = 3`. -/
theorem mul_homomorphism_witness :
    invReduce (mul (reduce 2 ⟨5, 4, 16, 1, 13⟩) (reduce 3 ⟨5, 4, 16, 1, 13⟩)
        ⟨5, 4, 16, 1, 13⟩) ⟨5, 4, 16, 1, 13⟩ = 2 * 3 % 5 ∧
    0 ≤ mulAux (reduce 2 ⟨5, 4, 16, 1, 13⟩) (reduce 3 ⟨5, 4, 16, 1, 13⟩) ⟨5, 4, 16, 1, 13⟩ ∧
    mulAux (reduce 2 ⟨5, 4, 16, 1, 13⟩) (reduce 3 ⟨5, 4, 16, 1, 13⟩) ⟨5, 4, 16, 1, 13⟩ < (5 : Int) := by
  have h := mul_homomorphism (m := 5) (a := 2) (b := 3) (by norm_num) (by norm_num)
    reductionContextFor_five (by norm_num) (by norm_num)
  exact h

/-- C5: Montgomery exponentiation is correct: for every odd modulus `m > 2`,
`a ∈ [0, m)` and `e ≥ 0`, `invReduce(pow(reduce a, e)) = a^e mod m`; and
`pow(n, 0)` is the Montgomery form of 1 (`reduce 1`) for every `n`. -/
theorem pow_correct {m a : Nat} {ctx : MontgomeryReductionContext}
    (hm : m % 2 = 1) (_hm2 : 2 < m)
    (hctx : reductionContextFor m = Except.ok ctx) (ha : a < m) (e : Nat) :
    invReduce (pow (reduce a ctx) e ctx) ctx = a ^ e % m ∧
    ∀ n : Nat, pow n 0 ctx = reduce 1 ctx :=
  ⟨pow_spec hm hctx ha e, fun n => pow_zero_eq n ctx⟩

/-- C5 witness: `2^7 mod 5` through the Montgomery engine at `m = 5`, and
`pow 3 0 = reduce 1` in the same context. -/
theorem pow_correct_witness :
    invReduce (pow (reduce 2 ⟨5, 4, 16, 1, 13⟩) 7 ⟨5, 4, 16, 1, 13⟩) ⟨5, 4, 16, 1, 13⟩
      = 2 ^ 7 % 5 ∧
    pow 3 0 ⟨5, 4, 16, 1, 13⟩ = reduce 1 ⟨5, 4, 16, 1, 13⟩ := by
  have h := pow_correct (m := 5) (a := 2) (by norm_num) (by norm_num)
    reductionContextFor_five (by norm_num) 7
  exact ⟨h.1, h.2 3⟩

/-- C6: converting into Montgomery form and back is the identity on
`[0, m)`: for every odd `m > 2` and `x < m`,
`invReduce(reduce x) = x mod m`. -/
theorem invReduce_reduce_eq {m x : Nat} {ctx : MontgomeryReductionContext}
    (hm : m % 2 = 1) (_hm2 : 2 < m)
    (hctx : reductionContextFor m = Except.ok ctx) (_hx : x < m) :
    invReduce (reduce x ctx) ctx = x % m := by
  have h := invReduce_reduce_modEq hm hctx x
  have hlt := invReduce_lt hm hctx (reduce x ctx)
  calc invReduce (reduce x ctx) ctx
      = invReduce (reduce x ctx) ctx % m := (Nat.mod_eq_of_lt hlt).symm
    _ = x % m := h

/-- C6 witness: the round-trip at `m = 5`, `x = 3`. -/
theorem invReduce_reduce_eq_witness :
    invReduce (reduce 3 ⟨5, 4, 16, 1, 13⟩) ⟨5, 4, 16, 1, 13⟩ = 3 % 5 :=
  invReduce_reduce_eq (m := 5) (x := 3) (by norm_num) (by norm_num)
    reductionContextFor_five (by norm_num)

/-- C7: the `witness` field is non-null iff `probablePrime` is false and
some round failed; when a prefix of rounds passes and the next round's base
`w` fails, the result reports exactly `w` as witness and is independent of
all later rounds (`break outer` short-circuit). -/
theorem testPrimality_witness_rule (m : Nat) (pre post : List Nat) (w : Nat)
    (h4 : 4 ≤ m)
    (hpre : ∀ x ∈ pre, oneRound m (mrD m) (mrR m) x = true)
    (hw : oneRound m (mrD m) (mrR m) w = false) :
    (∀ (k : Int) (bases : List Nat),
      (testResult k bases).witness.isSome = true ↔
        ((testResult k bases).probablePrime = false ∧ 4 ≤ k ∧
          (runRounds k.toNat (mrD k.toNat) (mrR k.toNat) bases).isSome = true)) ∧
    testResult (m : Int) (pre ++ w :: post) =
      { n := (m : Int), probablePrime := false, witness := some w } := by
  refine ⟨testResult_witness_iff, ?_⟩
  unfold testResult
  rw [if_neg (by omega), if_neg (by omega)]
  simp only [Int.toNat_natCast]
  rw [runRounds_append post hpre hw]

/-- C7 witness: for `n = 9` (`n - 1 = 1 * 2^3`) the base 8 passes its round,
the base 5 fails, and the result carries witness 5 regardless of the later
round with base 3. -/
theorem testPrimality_witness_rule_witness :
    testResult (9 : Int) ([8] ++ 5 :: [3]) =
      { n := (9 : Int), probablePrime := false, witness := some 5 } := by
  have h2 : mrR 9 = 3 := by simp [mrR, zeroBits]
  have h3 : mrD 9 = 1 := by simp [mrD, mrR, zeroBits]
  have h := testPrimality_witness_rule 9 [8] [3] 5
    (by norm_num)
    (by
      intro x hx
      have hx8 : x = 8 := by simpa using hx
      subst hx8
      rw [h2, h3]
      norm_num [oneRound])
    (by
      rw [h2, h3]
      norm_num [oneRound, squaringLoop])
  exact_mod_cast h.2

/-- C8 counterexample: the negative input -5 parses (bn.js accepts signed
integers), falls into the `n < 2` branch and resolves with
`probablePrime = false`, `witness = null`; the deferred result is fulfilled
(`Except.ok`), not rejected as the spec claims. -/
theorem testPrimality_negative_not_rejected :
    testPrimality (-5) [] =
      Except.ok { n := -5, probablePrime := false, witness := none } ∧
    (testPrimality (-5) []).isOk = true := by
  constructor
  · unfold testPrimality testResult
    norm_num
  · rfl

/-- C8 (amended): for inputs that parse to an integer `testPrimality` never
rejects; in particular every negative integer resolves (like any `n < 2`)
with `probablePrime = false` and a null witness.  Rejection is reserved for
inputs the bn.js constructor cannot parse at all, which is outside the
integer domain modelled here. -/
theorem testPrimality_negative_resolves :
    ∀ k : Int, k < 0 → ∀ bases : List Nat,
      testPrimality k bases =
        Except.ok { n := k, probablePrime := false, witness := none } := by
  intro k hk bases
  unfold testPrimality testResult
  rw [if_pos (by omega)]

/-- C8 witness: the amended behavior at input -7. -/
theorem testPrimality_negative_resolves_witness :
    testPrimality (-7) [] =
      Except.ok { n := -7, probablePrime := false, witness := none } :=
  testPrimality_negative_resolves (-7) (by norm_num) []

/-- C9: `reductionContextFor` fails with the `InvalidModulus` error exactly
for even moduli, and the parity check is the outermost branch of the
definition, taken before any context field is computed; for every odd
modulus it returns a context whose `base` is that modulus. -/
theorem reductionContextFor_error_iff :
    ∀ b : Nat,
      (reductionContextFor b = Except.error "base must be odd" ↔ b % 2 = 0) ∧
      (b % 2 = 1 → ∃ ctx, reductionContextFor b = Except.ok ctx ∧ ctx.base = b) := by
  intro b
  constructor
  · constructor
    · intro h
      by_contra hodd
      rw [reductionContextFor_eq (by omega)] at h
      exact Except.noConfusion h
    · intro h
      unfold reductionContextFor
      rw [if_pos h]
  · intro h
    exact ⟨_, reductionContextFor_eq h, rfl⟩

/-- C9 witness: the even modulus 4 is rejected with the error, and the odd
modulus 5 yields a context based at 5. -/
theorem reductionContextFor_error_iff_witness :
    reductionContextFor 4 = Except.error "base must be odd" ∧ 4 % 2 = 0 :=
  ⟨(reductionContextFor_error_iff 4).1.mpr rfl, rfl⟩

/-- C10: the binary `gcd` satisfies the spec's laws: commutativity,
`gcd(a,0) = a`, `gcd(a,a) = a`, and for positive arguments it divides both,
coincides with the reference Euclidean algorithm, and is greatest among
common divisors. -/
theorem gcd_laws :
    (∀ a b : Nat, gcd a b = gcd b a) ∧
    (∀ a : Nat, gcd a 0 = a) ∧
    (∀ a : Nat, gcd a a = a) ∧
    (∀ a b : Nat, 0 < a → 0 < b →
      gcd a b ∣ a ∧ gcd a b ∣ b ∧ gcd a b = euclidGcd a b ∧
        ∀ c : Nat, c ∣ a → c ∣ b → c ≤ gcd a b) := by
  refine ⟨?_, ?_, ?_, ?_⟩
  · intro a b
    rw [gcd_eq_natGcd, gcd_eq_natGcd, Nat.gcd_comm]
  · intro a
    rw [gcd_eq_natGcd, Nat.gcd_zero_right]
  · intro a
    rw [gcd_eq_natGcd, Nat.gcd_self]
  · intro a b ha hb
    rw [gcd_eq_natGcd, euclidGcd_eq_natGcd]
    refine ⟨Nat.gcd_dvd_left a b, Nat.gcd_dvd_right a b, rfl, ?_⟩
    intro c hca hcb
    exact Nat.le_of_dvd (Nat.gcd_pos_of_pos_left b ha) (Nat.dvd_gcd hca hcb)

/-- C10 witness: the positive-argument laws at `a = 12`, `b = 18`. -/
theorem gcd_laws_witness :
    0 < 12 ∧ 0 < 18 ∧ gcd 12 18 ∣ 12 ∧ gcd 12 18 ∣ 18 ∧
      gcd 12 18 = euclidGcd 12 18 := by
  refine ⟨by norm_num, by norm_num, ?_, ?_, ?_⟩
  · exact (gcd_laws.2.2.2 12 18 (by norm_num) (by norm_num)).1
  · exact (gcd_laws.2.2.2 12 18 (by norm_num) (by norm_num)).2.1
  · exact (gcd_laws.2.2.2 12 18 (by norm_num) (by norm_num)).2.2.1

end MillerRabin
